import Mathlib

/-!
Shallow embedding of the EPM statistical analysis pipeline
(`EPM_Full_Analysis_FIXED.py.py`) and proofs of the spec claims.

Modelling conventions:
* Cell values are rationals (`ℚ`); the statistical library calls
  (`scipy.stats.shapiro`, `ttest_rel`, `wilcoxon`) are external collaborators
  and are passed in as abstract function parameters, while their structural
  behaviour (shape errors on mismatched arrays) is modelled explicitly.
* numpy float semantics that matter to the claims (division by zero giving
  NaN/±Inf, elementwise subtraction raising on incompatible shapes) are
  modelled by the small types `DzVal`/`PyF` and by `npSub`.
* The Holm correction models `statsmodels.stats.multitest.multipletests`
  with `method="holm"`: argsort the p-values ascending, multiply the sorted
  p-values by `n, n-1, ..., 1`, take the running maximum, clip at 1, and
  scatter the corrected values back to the original positions.
-/

namespace EPM

/-- One record of the long dataframe built from the wide table (lines 71-87
of the source): `(Parameter, Subject, Group, Condition, Value)`. -/
structure Measurement where
  parameter : String
  subject : String
  group : String
  condition : String
  value : ℚ
deriving DecidableEq, Repr

/-! ### Column parser (`parse_column`, source lines 48-65) -/

/-- Python `col.replace(" ", "").replace("-", "")`: both patterns are single
characters replaced by the empty string, i.e. removed. -/
def pyStrip (cs : List Char) : List Char :=
  cs.filter (fun ch => ch ≠ ' ' && ch ≠ '-')

/-- Python `c.startswith(pre)` on character lists. -/
def listStartsWith : List Char → List Char → Bool
  | [], _ => true
  | _ :: _, [] => false
  | p :: ps, c :: cs => p == c && listStartsWith ps cs

/-- Python `pat in c` (substring containment) on character lists. -/
def listContainsSub (pat : List Char) : List Char → Bool
  | [] => listStartsWith pat []
  | c :: cs => listStartsWith pat (c :: cs) || listContainsSub pat cs

/-- Embedding of `parse_column` (source lines 48-65): strip spaces/hyphens,
resolve the group from the `PD`/`CO` prefix, the condition from the
`NoStim`/`Stim` substring, and take the subject as `c.split("_")[0]`, the
text before the first underscore. -/
def parse_column (col : String) : Option (String × String × String) :=
  let c := pyStrip col.data
  let group? : Option String :=
    if listStartsWith "PD".data c then some "PD"
    else if listStartsWith "CO".data c then some "Control"
    else none
  match group? with
  | none => none
  | some group =>
    let condition? : Option String :=
      if listContainsSub "NoStim".data c then some "No-Stim"
      else if listContainsSub "Stim".data c then some "Stim"
      else none
    match condition? with
    | none => none
    | some condition =>
      let subject := String.mk (c.takeWhile (fun ch => ch ≠ '_'))
      some (subject, group, condition)

/-! ### Numeric helpers shared by the paired-statistics paths -/

/-- Sum of a list of rationals (numpy `sum`). -/
def listSum (l : List ℚ) : ℚ := l.foldr (· + ·) 0

/-- numpy `mean` on a nonempty list (the callers guard emptiness). -/
def listMean (l : List ℚ) : ℚ := listSum l / l.length

/-- Sample variance with `ddof=1` (square of numpy `std(ddof=1)`); callers
only use it on lists of length ≥ 2, where the denominator is nonzero. -/
def sampleVar (l : List ℚ) : ℚ :=
  listSum (l.map (fun x => (x - listMean l) ^ 2)) / ((l.length : ℚ) - 1)

/-- Value of Cohen's dz `diff.mean() / diff.std(ddof=1)` as a Python float:
`val m v` stands for the finite value `m / sqrt v` with `v > 0`; the other
constructors are the IEEE specials numpy produces when the divisor is
zero (`0/0 = NaN`, `±x/0 = ±Inf`) or fewer than two samples make
`std(ddof=1)` itself NaN. -/
inductive DzVal where
  | nan
  | posInf
  | negInf
  | val (mean svar : ℚ)
deriving DecidableEq, Repr

/-- Whether the float is one of the non-finite specials. -/
def DzVal.isNonFinite : DzVal → Bool
  | .nan | .posInf | .negInf => true
  | .val _ _ => false

/-- Embedding of `dz = diff.mean() / diff.std(ddof=1)` (source line 113 and
line 229): with at most one sample `std(ddof=1)` is NaN (0/0) and so is the
quotient; with zero variance the quotient is NaN or ±Inf depending on the
sign of the mean; otherwise the finite value `mean / sqrt var`. -/
def cohensDz (diff : List ℚ) : DzVal :=
  if diff.length ≤ 1 then .nan
  else if sampleVar diff = 0 then
    if listMean diff = 0 then .nan
    else if 0 < listMean diff then .posInf
    else .negInf
  else .val (listMean diff) (sampleVar diff)

/-- numpy elementwise subtraction `a - b` with broadcasting: defined when the
shapes match or one side has length 1, otherwise a `ValueError` (modelled as
`none`). -/
def npSub (a b : List ℚ) : Option (List ℚ) :=
  if a.length = b.length then some (List.zipWith (· - ·) a b)
  else if b.length = 1 then some (a.map (fun x => x - b.headD 0))
  else if a.length = 1 then some (b.map (fun y => a.headD 0 - y))
  else none

/-! ### Paired hypothesis test selector (`paired_stats`, source lines 96-114) -/

/-- Row of the per-cell statistics result: the tuple
`(test, stat, p, dz)` returned by `paired_stats`. -/
structure TestResult where
  test : String
  statistic : ℚ
  p : ℚ
  dz : DzVal
deriving DecidableEq, Repr

/-- Outcome of a `paired_stats` call: the `None` early return, a Python
exception propagating out, or a `TestResult`. -/
inductive PSResult where
  | noResult
  | raised
  | result (r : TestResult)
deriving DecidableEq, Repr

/-- Values of the rows with `Condition == "No-Stim"`, in row order
(source line 97). -/
def offVals (data : List Measurement) : List ℚ :=
  (data.filter (fun m => m.condition == "No-Stim")).map (·.value)

/-- Values of the rows with `Condition == "Stim"`, in row order
(source line 98). -/
def onVals (data : List Measurement) : List ℚ :=
  (data.filter (fun m => m.condition == "Stim")).map (·.value)

/-- Embedding of `paired_stats` (source lines 96-114). The scipy calls are
abstract parameters: `shapiro` returns the normality p-value of the
differences, `ttest_rel` and `wilcoxon` return `(statistic, pvalue)`.
The numpy subtraction `on - off` on line 103 is modelled by `npSub`; a
shape mismatch there raises. -/
def paired_stats (shapiro : List ℚ → ℚ)
    (ttest_rel wilcoxon : List ℚ → List ℚ → ℚ × ℚ)
    (data : List Measurement) : PSResult :=
  let offv := offVals data
  let onv := onVals data
  if offv.length < 3 ∨ onv.length < 3 then .noResult
  else
    match npSub onv offv with
    | none => .raised
    | some diff =>
      let p_norm := shapiro diff
      if p_norm > 0.05 then
        let sp := ttest_rel onv offv
        .result ⟨"Paired t-test", sp.1, sp.2, cohensDz diff⟩
      else
        let sp := wilcoxon onv offv
        .result ⟨"Wilcoxon signed-rank", sp.1, sp.2, cohensDz diff⟩

/-! ### Holm correction (`multipletests(pvals, method="holm")`, source lines
150-156; the library routine is from statsmodels) -/

/-- Sort order used to model `np.argsort` on the p-values: ascending by
value, ties broken by original index (a stable order; the Holm-corrected
values do not depend on the tie order, since tied p-values receive the same
running maximum). -/
def pairLe (a b : ℕ × ℚ) : Prop :=
  a.2 < b.2 ∨ (a.2 = b.2 ∧ a.1 ≤ b.1)

instance : DecidableRel pairLe := fun a b => by
  unfold pairLe; infer_instance

instance : IsTotal (ℕ × ℚ) pairLe := by
  constructor
  intro a b
  rcases lt_trichotomy a.2 b.2 with h | h | h
  · exact Or.inl (Or.inl h)
  · rcases le_total a.1 b.1 with h1 | h1
    · exact Or.inl (Or.inr ⟨h, h1⟩)
    · exact Or.inr (Or.inr ⟨h.symm, h1⟩)
  · exact Or.inr (Or.inl h)

instance : IsTrans (ℕ × ℚ) pairLe := by
  constructor
  intro a b c hab hbc
  rcases hab with h | ⟨he, hi⟩
  · rcases hbc with h' | ⟨he', _⟩
    · exact Or.inl (h.trans h')
    · exact Or.inl (he' ▸ h)
  · rcases hbc with h' | ⟨he', hi'⟩
    · exact Or.inl (he ▸ h')
    · exact Or.inr ⟨he.trans he', hi.trans hi'⟩

/-- Model of `np.argsort(pvals)`: the p-values paired with their original
indices, sorted ascending. -/
def argsortP (ps : List ℚ) : List (ℕ × ℚ) :=
  List.insertionSort pairLe ps.enum

/-- Core of the Holm step-down pass over the ascending p-values: each sorted
p-value is multiplied by the number of remaining hypotheses
(`n, n-1, ..., 1`), a running maximum is taken (`np.maximum.accumulate`),
and the result is clipped at 1. -/
def holmAux (acc : ℚ) : List ℚ → List ℚ
  | [] => []
  | p :: rest =>
    let v := max acc (p * ((rest.length : ℚ) + 1))
    min 1 v :: holmAux v rest

/-- Holm-corrected p-values in Holm step order (ascending raw p-values). -/
def holmStepCorrected (ps : List ℚ) : List ℚ :=
  holmAux 0 ((argsortP ps).map Prod.snd)

/-- Full model of `multipletests(ps, method="holm")[1]`: corrected p-values
scattered back to the original positions
(`pvals_corrected_[sortind] = pvals_corrected`). -/
def holmCorrect (ps : List ℚ) : List ℚ :=
  let assoc := ((argsortP ps).map Prod.fst).zip (holmStepCorrected ps)
  (List.range ps.length).map (fun i => (assoc.lookup i).getD 0)

/-! ### Per-group application of the Holm correction (source lines 150-156) -/

/-- Row of `results_df` before the `p_holm` column is filled in
(source lines 132-144). -/
structure ResRow where
  parameter : String
  group : String
  test : String
  statistic : ℚ
  p_raw : ℚ
  dz : DzVal
deriving DecidableEq, Repr

/-- Raw p-values of a group's rows, in row order: the series
`results_df.loc[results_df["Group"] == g, "p_raw"]`. -/
def groupPvals (rs : List ResRow) (g : String) : List ℚ :=
  (rs.filter (fun r => r.group == g)).map (·.p_raw)

/-- Helper for `applyHolm`: walk the rows keeping, per group name, how many
rows of that group were already passed; each row receives the entry of its
group's corrected list at that rank. This is the row-aligned effect of the
source's `results_df.loc[mask, "p_holm"] = p_corr` assignment. -/
def applyHolmAux (corrOf : String → List ℚ) (cnt : String → ℕ) :
    List ResRow → List (ResRow × ℚ)
  | [] => []
  | r :: rest =>
    (r, (corrOf r.group).getD (cnt r.group) 0) ::
      applyHolmAux corrOf (fun g => if g = r.group then cnt g + 1 else cnt g) rest

/-- Embedding of the Holm-correction loop (source lines 150-156): every row
is paired with its `p_holm`, computed from its own group's raw p-values
only. -/
def applyHolm (rs : List ResRow) : List (ResRow × ℚ) :=
  applyHolmAux (fun g => holmCorrect (groupPvals rs g)) (fun _ => 0) rs

/-! ### Locomotion-control path (source lines 213-231) -/

/-- The fixed locomotion-control parameter list (source line 213). -/
def LOCOMOTION_PARAMS : List String := ["MeanSpeed_Overall_cm/s", "Entries_ClosedArms"]

/-- Row of the S4 locomotion table `[Parameter, Statistic, p_value,
Cohens_dz]` (source line 231). -/
structure LocoRow where
  parameter : String
  statistic : ℚ
  p : ℚ
  dz : DzVal
deriving DecidableEq, Repr

/-- Outcome of one iteration of the locomotion loop: the `continue` on an
empty subset, a propagating exception, or an appended row. -/
inductive LocoOutcome where
  | skipped
  | raised
  | row (r : LocoRow)
deriving DecidableEq, Repr

/-- The `(Parameter == param) & (Group == "PD")` subset of the long
dataframe (source lines 218-221 and 184-188). -/
def pdSubset (longDf : List Measurement) (param : String) : List Measurement :=
  longDf.filter (fun m => m.parameter == param && m.group == "PD")

/-- Embedding of one iteration of the locomotion loop (source lines
217-231): no length guard and no normality check; `stats.ttest_rel(on, off)`
raises on unequal-length arrays (modelled as `.raised`), otherwise the row
is built from the t-test's statistic/p and Cohen's dz of the positional
differences. -/
def locoStep (ttest_rel : List ℚ → List ℚ → ℚ × ℚ)
    (longDf : List Measurement) (param : String) : LocoOutcome :=
  let subset := pdSubset longDf param
  if subset.isEmpty then .skipped
  else
    let offv := offVals subset
    let onv := onVals subset
    if onv.length ≠ offv.length then .raised
    else
      let sp := ttest_rel onv offv
      .row ⟨param, sp.1, sp.2, cohensDz (List.zipWith (· - ·) onv offv)⟩

/-! ### Within-subject table (source lines 309-339) -/

/-- Python float for the pivot/percent-change computations: a finite
rational or one of the IEEE specials. -/
inductive PyF where
  | fin (q : ℚ)
  | nan
  | posInf
  | negInf
deriving DecidableEq, Repr

/-- Whether the float is NaN or ±Inf. -/
def PyF.isNonFinite : PyF → Bool
  | .fin _ => false
  | _ => true

/-- Subtraction on the floats reaching the `Delta` column: both pivot cells
are finite means or NaN (a subject missing one condition), and NaN
propagates. -/
def PyF.sub : PyF → PyF → PyF
  | .fin a, .fin b => .fin (a - b)
  | _, _ => .nan

/-- Division as numpy performs it on the floats reaching `Percent_Change`:
a NaN operand propagates, division by zero gives NaN for a zero numerator
and ±Inf otherwise. -/
def PyF.div : PyF → PyF → PyF
  | .fin a, .fin b =>
    if b ≠ 0 then .fin (a / b)
    else if a = 0 then .nan
    else if 0 < a then .posInf
    else .negInf
  | _, _ => .nan

/-- Multiplication by the positive literal 100 (source line 329). -/
def PyF.mul100 : PyF → PyF
  | .fin a => .fin (a * 100)
  | .nan => .nan
  | .posInf => .posInf
  | .negInf => .negInf

/-- Row of the within-subject table S5 (source lines 320-331). -/
structure WSRow where
  subject : String
  baseline : PyF
  intervention : PyF
  delta : PyF
  pc : PyF
deriving DecidableEq, Repr

/-- One pivot cell: `pivot_table` averages the values of a
(Subject, Condition) pair (default `aggfunc="mean"`) and leaves NaN when the
subject has no value for the condition. -/
def cellMean (vals : List ℚ) : PyF :=
  if vals.isEmpty then .nan else .fin (listMean vals)

/-- The distinct subjects of the subset, the pivot index. (pandas sorts the
index; the claims quantify over rows, so the order is irrelevant.) -/
def subjectsOf (rows : List Measurement) : List String :=
  (rows.map (·.subject)).dedup

/-- One row of the within-subject table for subject `s` (source lines
320-329): pivot cells, `Delta_Stim_minus_NoStim = Stim - No-Stim` and
`Percent_Change = Delta / No-Stim * 100`. -/
def wsRow (rows : List Measurement) (s : String) : WSRow :=
  let b := cellMean ((rows.filter
    (fun m => m.subject == s && m.condition == "No-Stim")).map (·.value))
  let v := cellMean ((rows.filter
    (fun m => m.subject == s && m.condition == "Stim")).map (·.value))
  let d := PyF.sub v b
  ⟨s, b, v, d, PyF.mul100 (PyF.div d b)⟩

/-- Embedding of one iteration of the within-subject loop (source lines
311-332): the table of `WSRow`s for one primary parameter, PD group. -/
def within_subject_table (longDf : List Measurement) (param : String) :
    List WSRow :=
  let temp := pdSubset longDf param
  (subjectsOf temp).map (wsRow temp)

/-- Helper describing the per-group effect of `applyHolmAux`: each row of a
group's filtered row list paired with successive entries of that group's
corrected-value list, starting at position `k`. -/
def attachCorr (cs : List ℚ) : ℕ → List ResRow → List (ResRow × ℚ)
  | _, [] => []
  | k, r :: rest => (r, cs.getD k 0) :: attachCorr cs (k + 1) rest

/-! ### Concrete samples used by the witness theorems -/

/-- Three PD subjects measured under both conditions. -/
def sampleA : List Measurement :=
  [⟨"P", "PD1", "PD", "No-Stim", 1⟩, ⟨"P", "PD2", "PD", "No-Stim", 2⟩,
   ⟨"P", "PD3", "PD", "No-Stim", 3⟩, ⟨"P", "PD1", "PD", "Stim", 2⟩,
   ⟨"P", "PD2", "PD", "Stim", 3⟩, ⟨"P", "PD3", "PD", "Stim", 5⟩]

/-- Three PD subjects whose differences are all equal (zero variance). -/
def sampleConst : List Measurement :=
  [⟨"P", "PD1", "PD", "No-Stim", 1⟩, ⟨"P", "PD2", "PD", "No-Stim", 2⟩,
   ⟨"P", "PD3", "PD", "No-Stim", 3⟩, ⟨"P", "PD1", "PD", "Stim", 2⟩,
   ⟨"P", "PD2", "PD", "Stim", 3⟩, ⟨"P", "PD3", "PD", "Stim", 4⟩]

/-- A locomotion parameter with three PD subjects under both conditions. -/
def sampleLoco : List Measurement :=
  [⟨"Entries_ClosedArms", "PD1", "PD", "No-Stim", 1⟩,
   ⟨"Entries_ClosedArms", "PD2", "PD", "No-Stim", 2⟩,
   ⟨"Entries_ClosedArms", "PD3", "PD", "No-Stim", 3⟩,
   ⟨"Entries_ClosedArms", "PD1", "PD", "Stim", 2⟩,
   ⟨"Entries_ClosedArms", "PD2", "PD", "Stim", 3⟩,
   ⟨"Entries_ClosedArms", "PD3", "PD", "Stim", 5⟩]

/-- A locomotion parameter with only two PD subjects. -/
def sampleLoco2 : List Measurement :=
  [⟨"MeanSpeed_Overall_cm/s", "PD1", "PD", "No-Stim", 1⟩,
   ⟨"MeanSpeed_Overall_cm/s", "PD2", "PD", "No-Stim", 2⟩,
   ⟨"MeanSpeed_Overall_cm/s", "PD1", "PD", "Stim", 2⟩,
   ⟨"MeanSpeed_Overall_cm/s", "PD2", "PD", "Stim", 3⟩]

/-- One PD subject with a zero baseline value. -/
def sampleZeroBase : List Measurement :=
  [⟨"Time_OpenArms", "PD1", "PD", "No-Stim", 0⟩,
   ⟨"Time_OpenArms", "PD1", "PD", "Stim", 3⟩]

/-! ## Claims -/

/-- Claim C1: for every paired sample whose baseline and intervention value
lists have equal length at least 3, `paired_stats` returns exactly one
`TestResult`, whose test is the paired t-test if and only if the normality
p-value of the differences exceeds 0.05, and the Wilcoxon signed-rank test
otherwise; the result is uniquely determined. -/
theorem paired_stats_selects_by_normality
    (shapiro : List ℚ → ℚ) (ttest wilcox : List ℚ → List ℚ → ℚ × ℚ)
    (data : List Measurement)
    (h3off : 3 ≤ (offVals data).length) (h3on : 3 ≤ (onVals data).length)
    (heq : (offVals data).length = (onVals data).length) :
    ∃ r, paired_stats shapiro ttest wilcox data = PSResult.result r ∧
      (r.test = "Paired t-test" ↔
        0.05 < shapiro (List.zipWith (· - ·) (onVals data) (offVals data))) ∧
      (r.test = "Paired t-test" ∨ r.test = "Wilcoxon signed-rank") ∧
      (∀ r', paired_stats shapiro ttest wilcox data = PSResult.result r' → r' = r) := by
  have hg : ¬((offVals data).length < 3 ∨ (onVals data).length < 3) := by omega
  have hnp : npSub (onVals data) (offVals data) =
      some (List.zipWith (· - ·) (onVals data) (offVals data)) := by
    unfold npSub
    rw [if_pos heq.symm]
  unfold paired_stats
  rw [if_neg hg, hnp]
  dsimp only
  by_cases hp : shapiro (List.zipWith (· - ·) (onVals data) (offVals data)) > 0.05
  · rw [if_pos hp]
    refine ⟨_, rfl, ?_, Or.inl rfl, ?_⟩
    · simpa using hp
    · intro r' h
      exact ((PSResult.result.injEq _ _).mp h).symm
  · rw [if_neg hp]
    refine ⟨_, rfl, ?_, Or.inr rfl, ?_⟩
    · constructor
      · intro h
        simp at h
      · intro h
        exact absurd h hp
    · intro r' h
      exact ((PSResult.result.injEq _ _).mp h).symm

/-- Witness for C1: on a concrete three-subject sample the selector
produces a test result, not the no-result value and not an exception. -/
theorem paired_stats_selects_by_normality_witness :
    paired_stats (fun _ => 1/2) (fun _ _ => (7, 1/50)) (fun _ _ => (3, 1/20)) sampleA ≠
      PSResult.noResult ∧
    paired_stats (fun _ => 1/2) (fun _ _ => (7, 1/50)) (fun _ _ => (3, 1/20)) sampleA ≠
      PSResult.raised := by
  obtain ⟨r, hr, -, -, -⟩ := paired_stats_selects_by_normality (fun _ => 1/2)
    (fun _ _ => (7, 1/50)) (fun _ _ => (3, 1/20)) sampleA
    (by decide) (by decide) (by decide)
  rw [hr]
  exact ⟨by simp, by simp⟩

/-- Claim C2: when either value list has fewer than 3 elements,
`paired_stats` returns `None` (no result, no exception); being a pure
function, repeated calls on identical input give the same outcome. -/
theorem paired_stats_small_sample_no_result
    (shapiro : List ℚ → ℚ) (ttest wilcox : List ℚ → List ℚ → ℚ × ℚ)
    (data : List Measurement)
    (h : (offVals data).length < 3 ∨ (onVals data).length < 3) :
    paired_stats shapiro ttest wilcox data = PSResult.noResult := by
  unfold paired_stats
  rw [if_pos h]

/-- Witness for C2 on a concrete two-subject sample. -/
theorem paired_stats_small_sample_no_result_witness :
    paired_stats (fun _ => 1/2) (fun _ _ => (7, 1/50)) (fun _ _ => (3, 1/20))
      [⟨"P", "PD1", "PD", "No-Stim", 1⟩, ⟨"P", "PD2", "PD", "No-Stim", 2⟩,
       ⟨"P", "PD1", "PD", "Stim", 2⟩, ⟨"P", "PD2", "PD", "Stim", 3⟩] =
      PSResult.noResult :=
  paired_stats_small_sample_no_result (fun _ => 1/2) (fun _ _ => (7, 1/50))
    (fun _ _ => (3, 1/20)) _ (by decide)

/-- Claim C9: `paired_stats` has no equal-length check and pairs the two
value lists positionally; when both lists have length at least 3 but the
lengths differ, the numpy subtraction `on - off` raises instead of
returning the no-result value. -/
theorem paired_stats_unequal_lengths_raise
    (shapiro : List ℚ → ℚ) (ttest wilcox : List ℚ → List ℚ → ℚ × ℚ)
    (data : List Measurement)
    (h3off : 3 ≤ (offVals data).length) (h3on : 3 ≤ (onVals data).length)
    (hne : (onVals data).length ≠ (offVals data).length) :
    paired_stats shapiro ttest wilcox data = PSResult.raised := by
  have hg : ¬((offVals data).length < 3 ∨ (onVals data).length < 3) := by omega
  have hnp : npSub (onVals data) (offVals data) = none := by
    unfold npSub
    rw [if_neg hne, if_neg (by omega), if_neg (by omega)]
  unfold paired_stats
  rw [if_neg hg, hnp]

/-- Witness for C9: four baseline rows against three stim rows raise. -/
theorem paired_stats_unequal_lengths_raise_witness :
    paired_stats (fun _ => 1/2) (fun _ _ => (7, 1/50)) (fun _ _ => (3, 1/20))
      [⟨"P", "PD1", "PD", "No-Stim", 1⟩, ⟨"P", "PD2", "PD", "No-Stim", 2⟩,
       ⟨"P", "PD3", "PD", "No-Stim", 3⟩, ⟨"P", "PD4", "PD", "No-Stim", 4⟩,
       ⟨"P", "PD1", "PD", "Stim", 2⟩, ⟨"P", "PD2", "PD", "Stim", 3⟩,
       ⟨"P", "PD3", "PD", "Stim", 5⟩] = PSResult.raised :=
  paired_stats_unequal_lengths_raise (fun _ => 1/2) (fun _ _ => (7, 1/50))
    (fun _ _ => (3, 1/20)) _ (by decide) (by decide) (by decide)

/-- Claim C5: every tested paired sample gets the effect size
`Cohen's dz = mean(diff) / std(diff, ddof=1)` of the positional
differences; with nonzero sample variance it is the finite value of that
formula, and with zero sample variance it is a non-finite float (NaN or
±Inf) while the call still returns a result rather than aborting. -/
theorem paired_stats_cohens_dz
    (shapiro : List ℚ → ℚ) (ttest wilcox : List ℚ → List ℚ → ℚ × ℚ)
    (data : List Measurement)
    (h3off : 3 ≤ (offVals data).length) (h3on : 3 ≤ (onVals data).length)
    (heq : (offVals data).length = (onVals data).length) :
    ∃ r, paired_stats shapiro ttest wilcox data = PSResult.result r ∧
      r.dz = cohensDz (List.zipWith (· - ·) (onVals data) (offVals data)) ∧
      (sampleVar (List.zipWith (· - ·) (onVals data) (offVals data)) ≠ 0 →
        r.dz = DzVal.val (listMean (List.zipWith (· - ·) (onVals data) (offVals data)))
          (sampleVar (List.zipWith (· - ·) (onVals data) (offVals data)))) ∧
      (sampleVar (List.zipWith (· - ·) (onVals data) (offVals data)) = 0 →
        r.dz.isNonFinite = true) := by
  have hg : ¬((offVals data).length < 3 ∨ (onVals data).length < 3) := by omega
  have hnp : npSub (onVals data) (offVals data) =
      some (List.zipWith (· - ·) (onVals data) (offVals data)) := by
    unfold npSub
    rw [if_pos heq.symm]
  have hlen : ¬(List.zipWith (· - ·) (onVals data) (offVals data)).length ≤ 1 := by
    rw [List.length_zipWith]
    omega
  have hdz : ∀ r, r = cohensDz (List.zipWith (· - ·) (onVals data) (offVals data)) →
      (sampleVar (List.zipWith (· - ·) (onVals data) (offVals data)) ≠ 0 →
        r = DzVal.val (listMean (List.zipWith (· - ·) (onVals data) (offVals data)))
          (sampleVar (List.zipWith (· - ·) (onVals data) (offVals data)))) ∧
      (sampleVar (List.zipWith (· - ·) (onVals data) (offVals data)) = 0 →
        r.isNonFinite = true) := by
    intro r hr
    subst hr
    unfold cohensDz
    rw [if_neg hlen]
    constructor
    · intro hv
      rw [if_neg hv]
    · intro hv
      rw [if_pos hv]
      split
      · rfl
      · split <;> rfl
  unfold paired_stats
  rw [if_neg hg, hnp]
  dsimp only
  by_cases hp : shapiro (List.zipWith (· - ·) (onVals data) (offVals data)) > 0.05
  · rw [if_pos hp]
    exact ⟨_, rfl, rfl, hdz _ rfl⟩
  · rw [if_neg hp]
    exact ⟨_, rfl, rfl, hdz _ rfl⟩

/-- Witness for C5: a sample with constant differences is still tested and
its Cohen's dz is non-finite. -/
theorem paired_stats_cohens_dz_witness :
    (cohensDz (List.zipWith (· - ·) (onVals sampleConst) (offVals sampleConst))).isNonFinite =
      true ∧
    paired_stats (fun _ => 1/2) (fun _ _ => (7, 1/50)) (fun _ _ => (3, 1/20)) sampleConst ≠
      PSResult.noResult := by
  obtain ⟨r, hr, hdz, -, hnf⟩ := paired_stats_cohens_dz (fun _ => 1/2)
    (fun _ _ => (7, 1/50)) (fun _ _ => (3, 1/20)) sampleConst
    (by decide) (by decide) (by decide)
  have hdiff : List.zipWith (· - ·) (onVals sampleConst) (offVals sampleConst) =
      [2 - 1, 3 - 2, 4 - 3] := rfl
  have hvar : sampleVar [(2 : ℚ) - 1, 3 - 2, 4 - 3] = 0 := by
    norm_num [sampleVar, listMean, listSum]
  refine ⟨?_, ?_⟩
  · rw [← hdz]
    exact hnf (by rw [hdiff]; exact hvar)
  · rw [hr]
    simp

/-- Claim C4: for the fixed locomotion-control parameters on the PD
(treatment) group, the pipeline always applies the parametric paired
t-test: the produced row takes its statistic and p-value from `ttest_rel`
for every input dataset, and even when the normality diagnostic on the
differences would make the adaptive selector `paired_stats` choose the
Wilcoxon test, the locomotion row is unchanged (the selector logic is
never consulted on this path — `locoStep` does not even take the
normality diagnostic as an input). -/
theorem locomotion_always_parametric
    (ttest : List ℚ → List ℚ → ℚ × ℚ) (longDf : List Measurement) (param : String)
    (hmem : param ∈ LOCOMOTION_PARAMS)
    (hne : (pdSubset longDf param).isEmpty = false)
    (hlen : (onVals (pdSubset longDf param)).length =
      (offVals (pdSubset longDf param)).length) :
    ∃ r, locoStep ttest longDf param = LocoOutcome.row r ∧
      r.statistic = (ttest (onVals (pdSubset longDf param))
        (offVals (pdSubset longDf param))).1 ∧
      r.p = (ttest (onVals (pdSubset longDf param))
        (offVals (pdSubset longDf param))).2 ∧
      ∀ shapiro wilcox,
        3 ≤ (offVals (pdSubset longDf param)).length →
        shapiro (List.zipWith (· - ·) (onVals (pdSubset longDf param))
          (offVals (pdSubset longDf param))) ≤ 0.05 →
        ∃ r', paired_stats shapiro ttest wilcox (pdSubset longDf param) =
            PSResult.result r' ∧
          r'.test = "Wilcoxon signed-rank" ∧
          r'.statistic = (wilcox (onVals (pdSubset longDf param))
            (offVals (pdSubset longDf param))).1 := by
  unfold locoStep
  dsimp only
  rw [if_neg (by simp [hne]), if_neg (fun h => h hlen)]
  refine ⟨_, rfl, rfl, rfl, ?_⟩
  intro shapiro wilcox h3 hsh
  have hg : ¬((offVals (pdSubset longDf param)).length < 3 ∨
      (onVals (pdSubset longDf param)).length < 3) := by omega
  have hnp : npSub (onVals (pdSubset longDf param)) (offVals (pdSubset longDf param)) =
      some (List.zipWith (· - ·) (onVals (pdSubset longDf param))
        (offVals (pdSubset longDf param))) := by
    unfold npSub
    rw [if_pos hlen]
  unfold paired_stats
  rw [if_neg hg, hnp]
  dsimp only
  rw [if_neg (not_lt.mpr hsh)]
  exact ⟨_, rfl, rfl, rfl⟩

/-- Witness for C4: on a concrete locomotion dataset whose differences get
a normality p-value of 0.01, the locomotion row is still produced (no skip,
no exception) while the adaptive selector on the same subset does return a
result (a Wilcoxon one, per the theorem). -/
theorem locomotion_always_parametric_witness :
    locoStep (fun _ _ => (7, 1/50)) sampleLoco "Entries_ClosedArms" ≠
      LocoOutcome.skipped ∧
    locoStep (fun _ _ => (7, 1/50)) sampleLoco "Entries_ClosedArms" ≠
      LocoOutcome.raised ∧
    paired_stats (fun _ => 1/100) (fun _ _ => (7, 1/50)) (fun _ _ => (3, 1/20))
      (pdSubset sampleLoco "Entries_ClosedArms") ≠ PSResult.noResult := by
  obtain ⟨r, h1, -, -, h4⟩ := locomotion_always_parametric (fun _ _ => (7, 1/50))
    sampleLoco "Entries_ClosedArms" (by decide) (by decide) (by decide)
  obtain ⟨r', h5, -, -⟩ := h4 (fun _ => 1/100) (fun _ _ => (3, 1/20))
    (by decide) (by norm_num)
  rw [h1, h5]
  exact ⟨by simp, by simp, by simp⟩

/-- Claim C10: the locomotion-control path has no minimum-sample-size
guard: whenever the PD subset for a locomotion parameter is non-empty (and
the two condition lists are equal-length so that `ttest_rel` does not
raise), a row with the t-test statistic and Cohen's dz is produced even
when fewer than 3 paired values exist — while `paired_stats` on the same
subset silently returns no result. -/
theorem locomotion_no_min_sample_guard
    (ttest : List ℚ → List ℚ → ℚ × ℚ) (longDf : List Measurement) (param : String)
    (hmem : param ∈ LOCOMOTION_PARAMS)
    (hne : (pdSubset longDf param).isEmpty = false)
    (hlen : (onVals (pdSubset longDf param)).length =
      (offVals (pdSubset longDf param)).length)
    (hsmall : (offVals (pdSubset longDf param)).length < 3) :
    (∃ r, locoStep ttest longDf param = LocoOutcome.row r ∧
      r.statistic = (ttest (onVals (pdSubset longDf param))
        (offVals (pdSubset longDf param))).1 ∧
      r.p = (ttest (onVals (pdSubset longDf param))
        (offVals (pdSubset longDf param))).2 ∧
      r.dz = cohensDz (List.zipWith (· - ·) (onVals (pdSubset longDf param))
        (offVals (pdSubset longDf param)))) ∧
    ∀ shapiro wilcox, paired_stats shapiro ttest wilcox (pdSubset longDf param) =
      PSResult.noResult := by
  constructor
  · unfold locoStep
    dsimp only
    rw [if_neg (by simp [hne]), if_neg (fun h => h hlen)]
    exact ⟨_, rfl, rfl, rfl, rfl⟩
  · intro shapiro wilcox
    unfold paired_stats
    rw [if_pos (Or.inl hsmall)]

/-- Witness for C10: a two-subject locomotion dataset still produces a row
while the selector on the same subset returns no result. -/
theorem locomotion_no_min_sample_guard_witness :
    locoStep (fun _ _ => (7, 1/50)) sampleLoco2 "MeanSpeed_Overall_cm/s" ≠
      LocoOutcome.skipped ∧
    locoStep (fun _ _ => (7, 1/50)) sampleLoco2 "MeanSpeed_Overall_cm/s" ≠
      LocoOutcome.raised ∧
    paired_stats (fun _ => 1/2) (fun _ _ => (7, 1/50)) (fun _ _ => (3, 1/20))
      (pdSubset sampleLoco2 "MeanSpeed_Overall_cm/s") = PSResult.noResult := by
  obtain ⟨⟨r, h1, -, -, -⟩, h2⟩ := locomotion_no_min_sample_guard
    (fun _ _ => (7, 1/50)) sampleLoco2 "MeanSpeed_Overall_cm/s"
    (by decide) (by decide) (by decide) (by decide)
  rw [h1]
  exact ⟨by simp, by simp, h2 _ _⟩

/-- Claim C7: every row of the within-subject table has
`Delta = Intervention - Baseline` exactly, `Percent_Change =
Delta / Baseline * 100` whenever the baseline is a nonzero finite value,
and a non-finite `Percent_Change` (NaN/±Inf, not a crash) when the
baseline is zero. -/
theorem within_subject_delta_percent
    (longDf : List Measurement) (param : String) (row : WSRow)
    (hrow : row ∈ within_subject_table longDf param) :
    row.delta = PyF.sub row.intervention row.baseline ∧
    (∀ b v : ℚ, row.baseline = PyF.fin b → row.intervention = PyF.fin v →
      row.delta = PyF.fin (v - b)) ∧
    (∀ b v : ℚ, row.baseline = PyF.fin b → row.intervention = PyF.fin v → b ≠ 0 →
      row.pc = PyF.fin ((v - b) / b * 100)) ∧
    (row.baseline = PyF.fin 0 → row.pc.isNonFinite = true) := by
  unfold within_subject_table at hrow
  rw [List.mem_map] at hrow
  obtain ⟨s, _, hs⟩ := hrow
  subst hs
  unfold wsRow
  dsimp only
  generalize (cellMean ((List.filter
    (fun m => m.subject == s && m.condition == "No-Stim")
    (pdSubset longDf param)).map (·.value))) = B
  generalize (cellMean ((List.filter
    (fun m => m.subject == s && m.condition == "Stim")
    (pdSubset longDf param)).map (·.value))) = V
  refine ⟨rfl, ?_, ?_, ?_⟩
  · intro b v hb hv
    subst hb
    subst hv
    rfl
  · intro b v hb hv hb0
    subst hb
    subst hv
    simp [PyF.sub, PyF.div, PyF.mul100, hb0]
  · intro hb
    subst hb
    cases V with
    | fin v =>
      simp only [PyF.sub, PyF.div]
      rw [if_neg (by simp)]
      rcases eq_or_ne (v - 0) 0 with h0 | h0
      · rw [if_pos h0]
        rfl
      · rw [if_neg h0]
        rcases lt_or_le 0 (v - 0) with hv | hv
        · rw [if_pos hv]
          rfl
        · rw [if_neg (not_lt.mpr hv)]
          rfl
    | nan => rfl
    | posInf => rfl
    | negInf => rfl

/-- Witness for C7: the single row for a subject with zero baseline has the
exact delta and a non-finite percent change. -/
theorem within_subject_delta_percent_witness :
    (wsRow (pdSubset sampleZeroBase "Time_OpenArms") "PD1").delta =
      PyF.sub (wsRow (pdSubset sampleZeroBase "Time_OpenArms") "PD1").intervention
        (wsRow (pdSubset sampleZeroBase "Time_OpenArms") "PD1").baseline ∧
    (wsRow (pdSubset sampleZeroBase "Time_OpenArms") "PD1").pc.isNonFinite = true := by
  obtain ⟨h1, -, -, h4⟩ := within_subject_delta_percent sampleZeroBase "Time_OpenArms"
    (wsRow (pdSubset sampleZeroBase "Time_OpenArms") "PD1")
    (List.mem_map_of_mem _ (by decide))
  refine ⟨h1, h4 ?_⟩
  show cellMean [(0 : ℚ)] = PyF.fin 0
  norm_num [cellMean, listMean, listSum]

/-- Prefix decomposition from a successful `listStartsWith` test. -/
theorem exists_append_of_listStartsWith :
    ∀ (ps cs : List Char), listStartsWith ps cs = true → ∃ t, cs = ps ++ t := by
  intro ps
  induction ps with
  | nil =>
    intro cs _
    exact ⟨cs, rfl⟩
  | cons p ps ih =>
    intro cs h
    cases cs with
    | nil => simp [listStartsWith] at h
    | cons c cs =>
      simp only [listStartsWith, Bool.and_eq_true, beq_iff_eq] at h
      obtain ⟨he, ht⟩ := h
      obtain ⟨t, rfl⟩ := ih cs ht
      exact ⟨t, by rw [he]; rfl⟩

/-- Every successful parse returns, as the subject, the text of the
stripped column name before its first underscore. -/
theorem parse_column_subject (col s g c : String)
    (h : parse_column col = some (s, g, c)) :
    s = String.mk ((pyStrip col.data).takeWhile (fun ch => ch ≠ '_')) := by
  unfold parse_column at h
  dsimp only at h
  repeat' split at h
  all_goals simp_all

/-- Claim C8: every column whose stripped name starts with `PD_` (resp.
`CO_`) and parses successfully gets the bare group prefix as its subject
identifier, so all such underscore-separated columns collapse to one
subject; underscore-free spellings such as `PD1_Stim` keep distinct
subjects. -/
theorem parse_column_collapses_underscore_subjects :
    (∀ col s g c, parse_column col = some (s, g, c) →
      listStartsWith "PD_".data (pyStrip col.data) = true → s = "PD") ∧
    (∀ col s g c, parse_column col = some (s, g, c) →
      listStartsWith "CO_".data (pyStrip col.data) = true → s = "CO") ∧
    parse_column "PD_1_NoStim" = some ("PD", "PD", "No-Stim") ∧
    parse_column "PD_2_NoStim" = some ("PD", "PD", "No-Stim") ∧
    parse_column "PD1_Stim" = some ("PD1", "PD", "Stim") ∧
    parse_column "PD2_Stim" = some ("PD2", "PD", "Stim") := by
  refine ⟨?_, ?_, by decide, by decide, by decide, by decide⟩
  · intro col s g c h hpre
    obtain ⟨t, ht⟩ := exists_append_of_listStartsWith _ _ hpre
    rw [parse_column_subject col s g c h, ht]
    rfl
  · intro col s g c h hpre
    obtain ⟨t, ht⟩ := exists_append_of_listStartsWith _ _ hpre
    rw [parse_column_subject col s g c h, ht]
    rfl

/-- Witness for C8: a fresh underscore-separated column parses and its
subject collapses to the group prefix. -/
theorem parse_column_collapses_underscore_subjects_witness :
    (parse_column "PD_9_NoStim" = some ("PD", "PD", "No-Stim") ∧
      listStartsWith "PD_".data (pyStrip "PD_9_NoStim".data) = true) ∧
    ("PD" : String) = "PD" :=
  ⟨⟨by decide, by decide⟩,
    parse_column_collapses_underscore_subjects.1 "PD_9_NoStim" "PD" "PD" "No-Stim"
      (by decide) (by decide)⟩

/-! ### Lemmas about the Holm correction -/

/-- Length of the Holm step-down pass. -/
theorem holmAux_length (acc : ℚ) (l : List ℚ) :
    (holmAux acc l).length = l.length := by
  induction l generalizing acc with
  | nil => rfl
  | cons p rest ih => simp [holmAux, ih]

/-- The Holm step-down pass yields a non-decreasing sequence. -/
theorem holmAux_chain (l : List ℚ) :
    ∀ acc, List.Chain' (· ≤ ·) (holmAux acc l) := by
  induction l with
  | nil =>
    intro acc
    simp [holmAux]
  | cons p rest ih =>
    intro acc
    simp only [holmAux]
    rw [List.chain'_cons']
    refine ⟨?_, ih _⟩
    intro y hy
    cases rest with
    | nil => simp [holmAux] at hy
    | cons q rest2 =>
      simp only [holmAux, List.head?_cons, Option.mem_def, Option.some.injEq] at hy
      subst hy
      exact min_le_min le_rfl (le_max_left _ _)

/-- Each entry of the Holm step-down pass dominates its input entry, for
input entries at most 1 and a nonnegative running maximum. -/
theorem holmAux_getD_ge (l : List ℚ) :
    ∀ (acc : ℚ), 0 ≤ acc → ∀ i, i < l.length → l.getD i 0 ≤ 1 →
      l.getD i 0 ≤ (holmAux acc l).getD i 0 := by
  induction l with
  | nil =>
    intro acc _ i hi
    simp at hi
  | cons p rest ih =>
    intro acc hacc i hi h1
    cases i with
    | zero =>
      simp only [List.getD_cons_zero] at h1
      simp only [holmAux, List.getD_cons_zero]
      rcases le_or_lt 0 p with hp | hp
      · refine le_min h1 ?_
        refine le_trans (le_mul_of_one_le_right hp ?_) (le_max_right _ _)
        have hc : (0 : ℚ) ≤ (rest.length : ℚ) := Nat.cast_nonneg _
        linarith
      · exact le_min h1 (le_trans hp.le (le_trans hacc (le_max_left _ _)))
    | succ i =>
      simp only [List.getD_cons_succ] at h1
      simp only [holmAux, List.getD_cons_succ]
      exact ih _ (le_trans hacc (le_max_left _ _)) i (by simpa using hi) h1

/-- Association lookup over distinct keys returns the co-indexed entry. -/
theorem lookup_zip_get (keys : List ℕ) :
    ∀ (cs : List ℚ), keys.Nodup →
      ∀ k (hk : k < keys.length) (hk2 : k < cs.length),
        (keys.zip cs).lookup (keys.get ⟨k, hk⟩) = some (cs.get ⟨k, hk2⟩) := by
  induction keys with
  | nil =>
    intro cs _ k hk
    simp at hk
  | cons a ks ih =>
    intro cs hnd k hk hk2
    cases cs with
    | nil => simp at hk2
    | cons c cs =>
      cases k with
      | zero => simp [List.lookup]
      | succ k =>
        have hlt : k < ks.length := by simpa using hk
        have hlt2 : k < cs.length := by simpa using hk2
        have hne : ks.get ⟨k, hlt⟩ ≠ a := by
          intro hEq
          exact (List.nodup_cons.mp hnd).1 (hEq ▸ List.get_mem ks k hlt)
        simp only [List.zip_cons_cons, List.lookup, List.get_cons_succ,
          beq_eq_false_iff_ne.mpr hne]
        exact ih cs (List.nodup_cons.mp hnd).2 k hlt hlt2

/-- Claim C6: for a group's list of raw p-values (each in `[0,1]`), the
Holm-corrected value of every entry is at least its raw value, and in Holm
step order — the ascending argsort order of the raw p-values — the
corrected values are monotonically non-decreasing. -/
theorem holm_corrected_dominates_and_monotone (ps : List ℚ)
    (hps : ∀ p ∈ ps, 0 ≤ p ∧ p ≤ 1) :
    (∀ i, i < ps.length → ps.getD i 0 ≤ (holmCorrect ps).getD i 0) ∧
    List.Chain' (· ≤ ·) (holmStepCorrected ps) ∧
    List.Sorted (· ≤ ·) ((argsortP ps).map Prod.snd) := by
  refine ⟨?_, by unfold holmStepCorrected; exact holmAux_chain _ 0, ?_⟩
  · intro i hi
    have hperm : List.Perm (argsortP ps) ps.enum := List.perm_insertionSort pairLe ps.enum
    have hlen_sorted : (argsortP ps).length = ps.length := by
      rw [hperm.length_eq, List.enum_length]
    have hmem : (i, ps[i]) ∈ ps.enum :=
      List.mk_mem_enum_iff_getElem?.mpr (List.getElem?_eq_getElem hi)
    obtain ⟨n, hkeq⟩ := List.mem_iff_get.mp (hperm.mem_iff.mpr hmem)
    obtain ⟨k, hk⟩ := n
    have hkeys_perm : List.Perm ((argsortP ps).map Prod.fst) (List.range ps.length) := by
      have hm := hperm.map Prod.fst
      rwa [List.enum_map_fst] at hm
    have hnodup : ((argsortP ps).map Prod.fst).Nodup :=
      hkeys_perm.nodup_iff.mpr (List.nodup_range _)
    have hlenk : k < ((argsortP ps).map Prod.fst).length := by
      simpa [List.length_map] using hk
    have hlenc : k < (holmStepCorrected ps).length := by
      unfold holmStepCorrected
      rw [holmAux_length, List.length_map]
      exact hk
    have hkey : ((argsortP ps).map Prod.fst).get ⟨k, hlenk⟩ = i := by
      rw [List.get_map, hkeq]
    have hlook : (((argsortP ps).map Prod.fst).zip (holmStepCorrected ps)).lookup i =
        some ((holmStepCorrected ps).get ⟨k, hlenc⟩) := by
      rw [← hkey]
      exact lookup_zip_get _ _ hnodup k hlenk hlenc
    have hhc : (holmCorrect ps).getD i 0 = (holmStepCorrected ps).get ⟨k, hlenc⟩ := by
      unfold holmCorrect
      dsimp only
      rw [List.getD_eq_getElem _ _ (by simpa using hi), List.getElem_map,
        List.getElem_range, hlook]
      rfl
    have hgetElem : (argsortP ps).get ⟨k, hk⟩ = (i, ps[i]) := hkeq
    rw [List.get_eq_getElem] at hgetElem
    have hsnd : ((argsortP ps).map Prod.snd).getD k 0 = ps[i] := by
      rw [List.getD_eq_getElem _ _ (by simpa [List.length_map] using hk),
        List.getElem_map, hgetElem]
    have hle1 : ((argsortP ps).map Prod.snd).getD k 0 ≤ 1 := by
      rw [hsnd]
      exact (hps _ (List.getElem_mem hi)).2
    have hmain := holmAux_getD_ge ((argsortP ps).map Prod.snd) 0 le_rfl k
      (by simpa [List.length_map] using hk) hle1
    rw [hsnd] at hmain
    rw [List.getD_eq_getElem _ _ hi, hhc]
    refine le_trans hmain (le_of_eq ?_)
    unfold holmStepCorrected at hlenc ⊢
    rw [List.get_eq_getElem]
    rw [List.getD_eq_getElem _ _ hlenc]
  · have hs : List.Sorted pairLe (argsortP ps) := List.sorted_insertionSort pairLe ps.enum
    refine List.Pairwise.map Prod.snd (fun a b hab => ?_) hs
    rcases hab with h | ⟨h, -⟩
    · exact le_of_lt h
    · exact le_of_eq h

/-- Witness for C6 on the p-value list `[1, 0, 1]`. -/
theorem holm_corrected_dominates_and_monotone_witness :
    (([1, 0, 1] : List ℚ).getD 1 0 ≤ (holmCorrect [1, 0, 1]).getD 1 0) ∧
    List.Chain' (· ≤ ·) (holmStepCorrected [1, 0, 1]) := by
  have h := holm_corrected_dominates_and_monotone [1, 0, 1] (by
    intro p hp
    simp only [List.mem_cons, List.not_mem_nil, or_false] at hp
    rcases hp with rfl | rfl | rfl <;> norm_num)
  exact ⟨h.1 1 (by decide), h.2.1⟩

/-- The group-`g` rows of `applyHolmAux` are exactly the group-`g` rows of
the input paired with successive entries of group `g`'s corrected list. -/
theorem applyHolmAux_filter (corrOf : String → List ℚ) (g : String) :
    ∀ (rs : List ResRow) (cnt : String → ℕ),
      (applyHolmAux corrOf cnt rs).filter (fun rc => rc.1.group == g) =
        attachCorr (corrOf g) (cnt g) (rs.filter (fun r => r.group == g)) := by
  intro rs
  induction rs with
  | nil =>
    intro cnt
    rfl
  | cons r rest ih =>
    intro cnt
    by_cases hg : r.group = g
    · subst hg
      simp only [applyHolmAux, List.filter_cons]
      dsimp only
      rw [if_pos (by simp), if_pos (by simp)]
      simp only [attachCorr]
      rw [ih]
      simp
    · simp only [applyHolmAux, List.filter_cons]
      dsimp only
      rw [if_neg (by simp [hg]), if_neg (by simp [hg])]
      rw [ih]
      congr 1
      exact if_neg (fun hEq => hg hEq.symm)

/-- Claim C3: Holm correction is applied to each group's raw p-values in
isolation: if two result tables agree on their group-`g` rows, they get
identical corrected values for group `g`, however the other groups' rows
are permuted or modified. -/
theorem holm_groups_independent (rs1 rs2 : List ResRow) (g : String)
    (h : rs1.filter (fun r => r.group == g) = rs2.filter (fun r => r.group == g)) :
    (applyHolm rs1).filter (fun rc => rc.1.group == g) =
      (applyHolm rs2).filter (fun rc => rc.1.group == g) := by
  unfold applyHolm
  rw [applyHolmAux_filter, applyHolmAux_filter]
  have hp : groupPvals rs1 g = groupPvals rs2 g := by
    unfold groupPvals
    rw [h]
  rw [h, hp]

/-- Witness for C3: replacing the single Control row by two different
Control rows leaves the PD rows' corrected values unchanged. -/
theorem holm_groups_independent_witness :
    (applyHolm [⟨"a", "PD", "t", 1, 0, DzVal.nan⟩,
      ⟨"b", "Control", "t", 1, 1, DzVal.nan⟩]).filter
        (fun rc => rc.1.group == "PD") =
      (applyHolm [⟨"a", "PD", "t", 1, 0, DzVal.nan⟩,
        ⟨"c", "Control", "t", 2, 0, DzVal.nan⟩,
        ⟨"d", "Control", "t", 3, 1, DzVal.nan⟩]).filter
          (fun rc => rc.1.group == "PD") :=
  holm_groups_independent _ _ "PD" (by rfl)

end EPM
